import Mathlib

/-!
Shallow embedding of the substitution-variant generator of
A113L/hashcat_a5_table_generator (src/main.go, second program in the file,
the one all claims cite: readSubstitutionTable at lines 251-287,
decodeHexNotation at 290-305, processWord at 311-348, processWordReverse at
350-404, generateCombinations at 406-424, validSubstitutionPositions at
426-448, processWordSubstituteAll at 450-508, processWordSubstituteAllReverse
at 510-583).

Modelling conventions:
* A Go string (a byte sequence) is a `List Char`, one `Char` per byte;
  byte-offset indexing/slicing becomes `List.take`/`List.drop`.
* The Go `map[string][]string` is an association list `SubMap`; Go map keys
  are unique, and lookups are by key, so an association-list lookup is
  faithful.  Where Go iterates over an (unordered) map we either take the
  key list (then the code itself sorts, so order is irrelevant) or fix the
  insertion order, and the order-dependence question is treated explicitly
  by the C10 theorems.
* Go `int` counters that are always non-negative in the program
  (substitution counts, bounds, offsets into strings) are `Nat`; the one
  value that can genuinely go negative, the running `offset` in
  processWordReverse, is an `Int`.
* A Go panic (index out of range, slice bounds out of range) is modelled
  with `Option`/a `Bool` success flag: `processWordReverse` returns the
  emitted list paired with `true` when the Go code finishes normally and
  with `false` when it would panic.
* Recursions whose Go termination argument is a bounded counter are given
  an explicit fuel argument that the surrounding call sites make large
  enough to be unreachable (noted at each definition); this keeps every
  definition structurally recursive so that concrete runs reduce inside
  the kernel.
* Emitted variants are paired with the substitution count the program held
  when sending them to the output channel (the count is used only for
  bounds filtering and is never printed; spec section 3, "Variant").
-/

/-- A Go string viewed as its byte sequence. -/
abbrev Str := List Char

/-- The substitution table `map[string][]string`, as an association list
(keys unique, as in a Go map). -/
abbrev SubMap := List (Str × List Str)

/-- Go map lookup `subMap[key]` returning `ok` as the `Option`. -/
def lookup : SubMap → Str → Option (List Str)
  | [], _ => none
  | (k, vs) :: rest, key => if k = key then some vs else lookup rest key

/-- Go map index without the `ok` flag: a missing key yields the empty
(nil) slice, exactly as `subMap[currentPattern]` does in Go. -/
def lookupD (m : SubMap) (key : Str) : List Str := (lookup m key).getD []

/-- The Go substring `w[i : i+k]` (for in-range `i`, `k`). -/
def subSlice (w : Str) (i k : Nat) : Str := (w.drop i).take k

/-- The Go splice `w[:i] + sub + w[i+klen:]` (for in-range indices). -/
def splice (w : Str) (i klen : Nat) (sub : Str) : Str :=
  w.take i ++ sub ++ w.drop (i + klen)

/-- The descending Go loop `for x := hi; x >= lo; x--` as the list of the
values of `x`, i.e. `[hi, hi-1, ..., lo]` (empty when `lo > hi`). -/
def descRange (hi lo : Nat) : List Nat := (List.range' lo (hi + 1 - lo)).reverse

/-- src/main.go:406-424 `generateCombinations(n, k)`: all size-`k` index
subsets of `{0..n-1}`, each as a strictly descending list, built by the
source's recursion `for i := n-1; i >= k-1; i--` over the largest index. -/
def generateCombinations : Nat → Nat → List (List Nat)
  | _, 0 => [[]]
  | n, k + 1 =>
    if n < k + 1 then []
    else (descRange (n - 1) k).flatMap (fun i =>
      (generateCombinations i k).map (fun sub => i :: sub))

/-- One entry of the `positions` slice of src/main.go:353-368: an occurrence
(start offset, pattern byte length, replacement options) of a table key in
the word. -/
structure Position where
  start : Nat
  keyLength : Nat
  subs : List Str

/-- src/main.go:358-368: scan every start offset `i` (ascending) and every
key length (ascending, `1..len(word)-i`) and record each table hit. -/
def findPositions (word : Str) (m : SubMap) : List Position :=
  (List.range word.length).flatMap (fun i =>
    (List.range' 1 (word.length - i)).flatMap (fun keyLength =>
      match lookup m (subSlice word i keyLength) with
      | some subs => [⟨i, keyLength, subs⟩]
      | none => []))

/-- Insertion step of the interval sort of src/main.go:438-440
(`sort.Slice` by start offset). -/
def insertIv (x : Nat × Nat) : List (Nat × Nat) → List (Nat × Nat)
  | [] => [x]
  | y :: ys => if x.1 < y.1 then x :: y :: ys else y :: insertIv x ys

/-- Sorting the closed intervals by start offset (src/main.go:438-440; the
Go sort is unstable, but the overlap check below only depends on the
start-ordering, and equal starts always overlap, so any by-start sort gives
the same boolean). -/
def sortIv : List (Nat × Nat) → List (Nat × Nat)
  | [] => []
  | x :: xs => insertIv x (sortIv xs)

/-- The adjacent-interval scan of src/main.go:442-447: after sorting,
consecutive intervals must not intersect (`intervals[i][0] > intervals[i-1][1]`). -/
def pairwiseOk : List (Nat × Nat) → Bool
  | [] => true
  | [_] => true
  | a :: b :: rest => (decide (a.2 < b.1)) && pairwiseOk (b :: rest)

/-- src/main.go:426-448 `validSubstitutionPositions`: the selected
occurrences, as closed byte intervals `[start, start+keyLength-1]`, must be
pairwise disjoint.  (The Go code indexes `positions[idx]`; indices produced
by generateCombinations are always in range, and the default head keeps the
definition total.) -/
def validSubstitutionPositions (combo : List Nat) (positions : List Position) : Bool :=
  pairwiseOk (sortIv (combo.map (fun idx =>
    let pos := (positions.getD idx ⟨0, 1, []⟩)
    (pos.start, pos.start + pos.keyLength - 1))))

/-- The application loop of src/main.go:392-400: walk the combo (in the
order generateCombinations produced it), replace each selected occurrence
with its FIRST replacement option at `start + offset`, and track the
running length delta `offset`.  `none` models the two Go panics on this
path: `pos.subs[0]` on an empty replacement list (src/main.go:396) and a
slice with `actualStart` outside `[0, len(result)-keyLength]`
(src/main.go:398). -/
def applyComboAux (positions : List Position) : List Nat → Str → Int → Option Str
  | [], result, _ => some result
  | idx :: rest, result, offset =>
    match positions.get? idx with
    | none => none
    | some pos =>
      match pos.subs with
      | [] => none
      | sub :: _ =>
        let actualStart : Int := (pos.start : Int) + offset
        if 0 ≤ actualStart ∧ actualStart + (pos.keyLength : Int) ≤ (result.length : Int) then
          applyComboAux positions rest
            (result.take actualStart.toNat ++ sub ++ result.drop (actualStart.toNat + pos.keyLength))
            (offset + (sub.length : Int) - (pos.keyLength : Int))
        else none

/-- Runs a loop body `f` over `l`, concatenating what each iteration sends
to the output channel, and stopping at the first iteration that panics
(second component `false`). -/
def runEmit : List α → (α → List β × Bool) → List β × Bool
  | [], _ => ([], true)
  | a :: rest, f =>
    let r := f a
    if r.2 then
      let r2 := runEmit rest f
      (r.1 ++ r2.1, r2.2)
    else (r.1, false)

/-- src/main.go:350-404 `processWordReverse`: find all occurrences, walk
substitution counts from `min(max, len(positions))` down to `min`, and for
every non-overlapping combination emit the composed variant (paired with
its substitution count).  The `Bool` is `false` iff the Go code panics
while composing some variant (see applyComboAux). -/
def processWordReverse (word : Str) (m : SubMap) (minS maxS : Nat) :
    List (Str × Nat) × Bool :=
  let positions := findPositions word m
  if positions.length < minS then ([], true)
  else
    let actualMax := min maxS positions.length
    runEmit (descRange actualMax minS) (fun subCount =>
      runEmit (generateCombinations positions.length subCount) (fun combo =>
        if validSubstitutionPositions combo positions then
          match applyComboAux positions combo word 0 with
          | some r => ([(r, subCount)], true)
          | none => ([], false)
        else ([], true)))

/-- The recursive closure `generate` of src/main.go:316-345.  The fuel is
`maxSubstitute + 1 - currentSubCount` at every reachable call: each
recursive call increments the count and is guarded by
`newSubCount <= maxSubstitute`, so the fuel-0 branch is never reached from
processWord's top-level call. -/
def genFwd (m : SubMap) (minS maxS : Nat) : Nat → Str → Nat → Nat → List (Str × Nat)
  | 0, _, _, _ => []
  | fuel + 1, cur, count, start =>
    (List.range' start (cur.length - start)).flatMap (fun i =>
      (descRange (cur.length - i) 1).flatMap (fun keyLength =>
        if cur.length < i + keyLength then []
        else
          match lookup m (subSlice cur i keyLength) with
          | none => []
          | some subs =>
            subs.flatMap (fun sub =>
              if maxS < count + 1 then []
              else
                (if minS ≤ count + 1 then [(splice cur i keyLength sub, count + 1)] else [])
                ++ genFwd m minS maxS fuel (splice cur i keyLength sub) (count + 1)
                     (i + sub.length))))

/-- src/main.go:311-348 `processWord` (forward occurrence algorithm): a
caller minimum of 0 is bumped to 1 (src/main.go:312-314), then the
depth-first scan starts at offset 0 with count 0. -/
def processWord (word : Str) (m : SubMap) (minS maxS : Nat) : List (Str × Nat) :=
  genFwd m (if minS = 0 then 1 else minS) maxS (maxS + 1) word 0 0

/-- One step of Go `strings.Replace(s, pat, rep, -1)` for non-empty `pat`:
scan left to right, replacing each leftmost non-overlapping occurrence.
The fuel is the length of the remaining string at the call (each step
consumes at least one character, so the fuel-0 branch is unreachable from
replaceAll). -/
def replaceAllFuel (pat rep : Str) : Nat → Str → Str
  | 0, s => s
  | _ + 1, [] => []
  | fuel + 1, c :: rest =>
    if pat.isPrefixOf (c :: rest) then
      rep ++ replaceAllFuel pat rep fuel ((c :: rest).drop pat.length)
    else c :: replaceAllFuel pat rep fuel rest

/-- Go `strings.ReplaceAll(s, pat, rep)`: for an empty pattern Go inserts
`rep` before every character and at the end; otherwise every leftmost
non-overlapping occurrence is replaced. -/
def replaceAll (s pat rep : Str) : Str :=
  if pat = [] then rep ++ s.flatMap (fun c => c :: rep)
  else replaceAllFuel pat rep s.length s

/-- The emission loop of src/main.go:481-484 and 553-556: apply the chosen
global replace-alls one after the other.  Go iterates the `currentSubs`
map in unspecified order; the model folds in the list order the entries
were inserted (ascending pattern order).  Claim C10 is exactly about this
order dependence. -/
def applySubs (word : Str) (subs : List (Str × Str)) : Str :=
  subs.foldl (fun acc pr => replaceAll acc pr.1 pr.2) word

/-- The scan of src/main.go:456-462 (and 516-522) for one pattern: does the
pattern match at some start offset `i < len(word)` with `i+len(pattern) <=
len(word)`? -/
def occursIn (word p : Str) : Bool :=
  (List.range word.length).any (fun i =>
    decide (i + p.length ≤ word.length) && (subSlice word i p.length == p))

/-- The key set of the Go map (Go map keys are distinct; `dedup` guards the
association-list model). -/
def mapKeys (m : SubMap) : List Str := (m.map Prod.fst).dedup

/-- Go byte-wise lexicographic string comparison (the order of
`sort.Strings`). -/
def ltStr : Str → Str → Bool
  | [], [] => false
  | [], _ :: _ => true
  | _ :: _, [] => false
  | a :: as, b :: bs => if a < b then true else if b < a then false else ltStr as bs

/-- Insertion step for sortStr. -/
def insertStr (x : Str) : List Str → List Str
  | [] => [x]
  | y :: ys => if ltStr x y then x :: y :: ys else y :: insertStr x ys

/-- `sort.Strings` of src/main.go:469 and 528 (its input has no duplicate
strings, so any by-ltStr sort yields the same list). -/
def sortStr : List Str → List Str
  | [] => []
  | x :: xs => insertStr x (sortStr xs)

/-- src/main.go:452-469 (and 513-528): the distinct table patterns that
occur somewhere in the word, sorted for deterministic processing. -/
def findUniquePatterns (word : Str) (m : SubMap) : List Str :=
  sortStr ((mapKeys m).filter (fun p => occursIn word p))

/-- The recursive closure `generate` of src/main.go:472-504, recursing over
the still-undecided suffix of the sorted pattern list (`patterns[pos:]` in
the source; the position index becomes the structural suffix).  At each
pattern: one branch per replacement option (the pattern is added to the
chosen set, which insertion keeps in sorted pattern order), plus the
leave-untouched branch.  At a leaf the chosen-set size is the substitution
count, filtered against the bounds, and the chosen replace-alls are applied
globally. -/
def genAll (word : Str) (m : SubMap) (minS maxS : Nat) :
    List (Str × Str) → List Str → List (Str × Nat)
  | currentSubs, [] =>
    if currentSubs.length < minS ∨ maxS < currentSubs.length then []
    else [(applySubs word currentSubs, currentSubs.length)]
  | currentSubs, p :: rest =>
    ((lookupD m p).flatMap (fun sub =>
      genAll word m minS maxS (currentSubs ++ [(p, sub)]) rest))
    ++ genAll word m minS maxS currentSubs rest

/-- src/main.go:450-508 `processWordSubstituteAll` (pattern-level forward
algorithm). -/
def processWordSubstituteAll (word : Str) (m : SubMap) (minS maxS : Nat) :
    List (Str × Nat) :=
  genAll word m minS maxS [] (findUniquePatterns word m)

/-- Go `delete`-style removal of the (unique) entry with the given key from
the chosen-substitutions list (src/main.go:572-577 copies all pairs whose
key differs; the keys are distinct, so removing the first match is the
same). -/
def eraseKey : List (Str × Str) → Str → List (Str × Str)
  | [], _ => []
  | (k, v) :: rest, p => if k = p then rest else (k, v) :: eraseKey rest p

/-- The recursive closure `generateSubsets` of src/main.go:544-580: emit the
current chosen set if its size is within bounds, stop once the size has
reached the minimum, and otherwise remove each still-chosen pattern at or
after the current position (the position index over `patterns` becomes the
structural suffix `rem`).  Each recursive call removes one chosen entry, so
fuel `currentSubs.length + 1` at the top call makes the fuel-0 branch
unreachable. -/
def genSubsets (word : Str) (minS maxS : Nat) :
    Nat → List (Str × Str) → List Str → List (Str × Nat)
  | 0, _, _ => []
  | fuel + 1, currentSubs, rem =>
    if currentSubs.length < minS then []
    else
      (if currentSubs.length ≤ maxS then [(applySubs word currentSubs, currentSubs.length)]
       else [])
      ++ (if currentSubs.length ≤ minS then []
          else (List.range rem.length).flatMap (fun j =>
            if (rem.getD j []) ∈ currentSubs.map Prod.fst then
              genSubsets word minS maxS fuel (eraseKey currentSubs (rem.getD j []))
                (rem.drop (j + 1))
            else []))

/-- src/main.go:510-583 `processWordSubstituteAllReverse` (pattern-level
reverse algorithm): start from every occurring pattern chosen with its
first replacement option (patterns whose option list is empty are skipped,
src/main.go:537-541) and recursively remove patterns. -/
def processWordSubstituteAllReverse (word : Str) (m : SubMap) (minS maxS : Nat) :
    List (Str × Nat) :=
  let patterns := findUniquePatterns word m
  if patterns.length < minS then []
  else
    let allSubs := patterns.foldl (fun acc p =>
      match lookupD m p with
      | [] => acc
      | s :: _ => acc ++ [(p, s)]) []
    genSubsets word minS maxS (allSubs.length + 1) allSubs patterns

/-- Go `unicode.IsSpace` restricted to the Latin-1 range (space, tab,
newline, vertical tab, form feed, carriage return, NEL, NBSP); the table
claims only involve ASCII lines. -/
def isSpaceChar (c : Char) : Bool :=
  c.toNat = 32 || (9 ≤ c.toNat && c.toNat ≤ 13) || c.toNat = 133 || c.toNat = 160

/-- Go `strings.TrimSpace`. -/
def trimSpace (s : Str) : Str :=
  ((s.dropWhile isSpaceChar).reverse.dropWhile isSpaceChar).reverse

/-- Go `strings.SplitN(line, "=", 2)` (src/main.go:266-269): `none` when the
line has no `=` at all (Go then returns a single part and the
`len(parts) != 2` check skips the line); otherwise the text before the
FIRST `=` and everything after it (which may itself contain `=`). -/
def splitEq (line : Str) : Option (Str × Str) :=
  if '=' ∈ line then
    some (line.takeWhile (fun c => c != '='), (line.dropWhile (fun c => c != '=')).tail)
  else none

/-- Value of one hexadecimal digit as Go `encoding/hex` accepts them. -/
def hexVal (c : Char) : Option Nat :=
  if '0' ≤ c ∧ c ≤ '9' then some (c.toNat - 48)
  else if 'a' ≤ c ∧ c ≤ 'f' then some (c.toNat - 87)
  else if 'A' ≤ c ∧ c ≤ 'F' then some (c.toNat - 55)
  else none

/-- Go `hex.DecodeString`: `none` on odd length or a non-hex digit (Go also
returns an error in both cases, and the caller treats any error as a skip). -/
def hexDecode : Str → Option Str
  | [] => some []
  | [_] => none
  | a :: b :: rest =>
    match hexVal a, hexVal b, hexDecode rest with
    | some x, some y, some r => some (Char.ofNat (16 * x + y) :: r)
    | _, _, _ => none

/-- src/main.go:290-305 `decodeHexNotation`: anything not of the shape
`$HEX[...]` (length at least 7, that prefix, `]` last) is returned as-is;
otherwise the bracket content, with spaces removed, must decode as hex
(`none` = the error return, which makes the caller skip the line). -/
def decodeHexNotation (v : Str) : Option Str :=
  if v.length < 7 ∨ ¬(['$','H','E','X','['].isPrefixOf v = true) ∨ v.getLast? ≠ some ']' then
    some v
  else hexDecode (((v.take (v.length - 1)).drop 5).filter (fun c => c != ' '))

/-- Go `substitutions[decodedKey] = append(substitutions[decodedKey],
decodedValue)` on the association-list map: appends to the existing key's
option list, or adds a new key. -/
def appendEntry : SubMap → Str → Str → SubMap
  | [], k, v => [(k, [v])]
  | (k', vs) :: rest, k, v =>
    if k' = k then (k', vs ++ [v]) :: rest else (k', vs) :: appendEntry rest k v

/-- The loop body of src/main.go:260-285 for one line of the table file:
trim, skip empty and `#`-comment lines, skip lines with no `=`, skip lines
whose key or value fails hex decoding, and otherwise append the decoded
replacement to the decoded key's list. -/
def tableStep (m : SubMap) (raw : Str) : SubMap :=
  let line := trimSpace raw
  if line = [] ∨ line.head? = some '#' then m
  else
    match splitEq line with
    | none => m
    | some (keyPart, valuePart) =>
      match decodeHexNotation keyPart, decodeHexNotation valuePart with
      | some k, some v => appendEntry m k v
      | _, _ => m

/-- src/main.go:251-287 `readSubstitutionTable`, applied to the list of
lines of the file (opening the file and the scanner are I/O collaborators
outside the model). -/
def readSubstitutionTable (lines : List Str) : SubMap :=
  lines.foldl tableStep []

theorem runEmit_mem {α β : Type} {l : List α} {f : α → List β × Bool} {p : β}
    (hp : p ∈ (runEmit l f).1) : ∃ a ∈ l, p ∈ (f a).1 := by
  induction l with
  | nil => simp [runEmit] at hp
  | cons a rest ih =>
    by_cases h : (f a).2 = true
    · simp only [runEmit, h, if_true] at hp
      rcases List.mem_append.mp hp with hp | hp
      · exact ⟨a, by simp, hp⟩
      · rcases ih hp with ⟨b, hb, hpb⟩
        exact ⟨b, by simp [hb], hpb⟩
    · simp only [runEmit, h, if_false] at hp
      exact ⟨a, by simp, hp⟩

theorem descRange_mem {hi lo x : Nat} : x ∈ descRange hi lo ↔ lo ≤ x ∧ x ≤ hi := by
  simp only [descRange, List.mem_reverse, List.mem_range'_1]
  omega

theorem genFwd_bounds {m : SubMap} {minS maxS : Nat} :
    ∀ {fuel : Nat} {cur : Str} {count start : Nat} {p : Str × Nat},
      p ∈ genFwd m minS maxS fuel cur count start → minS ≤ p.2 ∧ p.2 ≤ maxS := by
  intro fuel
  induction fuel with
  | zero => intro cur count start p hp; simp [genFwd] at hp
  | succ fuel ih =>
    intro cur count start p hp
    simp only [genFwd, List.mem_flatMap] at hp
    obtain ⟨i, _, keyLength, _, hp⟩ := hp
    split at hp
    · simp at hp
    · split at hp
      · simp at hp
      · simp only [List.mem_flatMap] at hp
        obtain ⟨sub, _, hp⟩ := hp
        split at hp
        · simp at hp
        · rename_i hmax
          rcases List.mem_append.mp hp with hp | hp
          · split at hp
            · rename_i hmin
              simp only [List.mem_singleton] at hp
              subst hp
              exact ⟨hmin, by omega⟩
            · simp at hp
          · exact ih hp

theorem genAll_bounds {word : Str} {m : SubMap} {minS maxS : Nat} :
    ∀ {rem : List Str} {currentSubs : List (Str × Str)} {p : Str × Nat},
      p ∈ genAll word m minS maxS currentSubs rem → minS ≤ p.2 ∧ p.2 ≤ maxS := by
  intro rem
  induction rem with
  | nil =>
    intro currentSubs p hp
    simp only [genAll] at hp
    split at hp
    · simp at hp
    · rename_i h
      push_neg at h
      simp only [List.mem_singleton] at hp
      subst hp
      exact ⟨h.1, h.2⟩
  | cons q rest ih =>
    intro currentSubs p hp
    rcases List.mem_append.mp hp with hp | hp
    · simp only [List.mem_flatMap] at hp
      obtain ⟨sub, _, hp⟩ := hp
      exact ih hp
    · exact ih hp

theorem genSubsets_bounds {word : Str} {minS maxS : Nat} :
    ∀ {fuel : Nat} {currentSubs : List (Str × Str)} {rem : List Str} {p : Str × Nat},
      p ∈ genSubsets word minS maxS fuel currentSubs rem → minS ≤ p.2 ∧ p.2 ≤ maxS := by
  intro fuel
  induction fuel with
  | zero => intro currentSubs rem p hp; simp [genSubsets] at hp
  | succ fuel ih =>
    intro currentSubs rem p hp
    simp only [genSubsets] at hp
    split at hp
    · simp at hp
    · rename_i hmin
      rcases List.mem_append.mp hp with hp | hp
      · split at hp
        · rename_i hmax
          simp only [List.mem_singleton] at hp
          subst hp
          exact ⟨by omega, hmax⟩
        · simp at hp
      · split at hp
        · simp at hp
        · simp only [List.mem_flatMap, List.mem_range] at hp
          obtain ⟨j, _, hp⟩ := hp
          split at hp
          · exact ih hp
          · simp at hp

theorem processWordReverse_bounds {word : Str} {m : SubMap} {minS maxS : Nat}
    {p : Str × Nat} (hp : p ∈ (processWordReverse word m minS maxS).1) :
    minS ≤ p.2 ∧ p.2 ≤ maxS := by
  simp only [processWordReverse] at hp
  split at hp
  · simp at hp
  · obtain ⟨subCount, hsc, hp⟩ := runEmit_mem hp
    obtain ⟨combo, _, hp⟩ := runEmit_mem hp
    rcases descRange_mem.mp hsc with ⟨h1, h2⟩
    split at hp
    · split at hp
      · simp only [List.mem_singleton] at hp
        subst hp
        exact ⟨h1, le_trans h2 (min_le_left _ _)⟩
      · simp at hp
    · simp at hp

theorem genFwd_emptyMap {minS maxS : Nat} {fuel : Nat} {cur : Str} {count start : Nat} :
    genFwd [] minS maxS fuel cur count start = [] := by
  cases fuel with
  | zero => rfl
  | succ fuel =>
    simp only [genFwd]
    refine List.flatMap_eq_nil_iff.mpr (fun i _ => ?_)
    refine List.flatMap_eq_nil_iff.mpr (fun keyLength _ => ?_)
    split
    · rfl
    · rfl

theorem findPositions_emptyMap {word : Str} : findPositions word [] = [] := by
  simp only [findPositions]
  refine List.flatMap_eq_nil_iff.mpr (fun i _ => ?_)
  refine List.flatMap_eq_nil_iff.mpr (fun keyLength _ => ?_)
  rfl

theorem findUniquePatterns_emptyMap {word : Str} : findUniquePatterns word [] = [] := rfl

/-- Claim C1: for every word, table and bounds pair, every variant emitted
by any of the four generation algorithms carries a substitution count (as
that algorithm defines it) within the inclusive range from the minimum to
the maximum.  For processWordReverse the emitted list is the first
component (the second is the no-panic flag). -/
theorem claim_C1_counts_within_bounds (word : Str) (m : SubMap) (minS maxS : Nat) :
    (∀ p ∈ processWord word m minS maxS, minS ≤ p.2 ∧ p.2 ≤ maxS)
    ∧ (∀ p ∈ (processWordReverse word m minS maxS).1, minS ≤ p.2 ∧ p.2 ≤ maxS)
    ∧ (∀ p ∈ processWordSubstituteAll word m minS maxS, minS ≤ p.2 ∧ p.2 ≤ maxS)
    ∧ (∀ p ∈ processWordSubstituteAllReverse word m minS maxS, minS ≤ p.2 ∧ p.2 ≤ maxS) := by
  refine ⟨?_, fun p hp => processWordReverse_bounds hp, ?_, ?_⟩
  · intro p hp
    simp only [processWord] at hp
    have h := genFwd_bounds hp
    refine ⟨?_, h.2⟩
    by_cases h0 : minS = 0
    · subst h0; exact Nat.zero_le _
    · rw [if_neg h0] at h; exact h.1
  · intro p hp
    simp only [processWordSubstituteAll] at hp
    exact genAll_bounds hp
  · intro p hp
    simp only [processWordSubstituteAllReverse] at hp
    split at hp
    · simp at hp
    · exact genSubsets_bounds hp

theorem claim_C1_witness : 1 ≤ ("f0o".toList, (1 : Nat)).2 ∧ ("f0o".toList, (1 : Nat)).2 ≤ 2 :=
  (claim_C1_counts_within_bounds "foo".toList [("o".toList, ["0".toList])] 1 2).1
    ("f0o".toList, 1) (by decide)

/-- Claim C2: with the table sending "o" to "0", the word "foo", min 1 and
max 2, processWord emits exactly "f0o", "fo0" and "f00", each once and
nothing else (the model also fixes the emission order and the counts the
program held at each emission). -/
theorem claim_C2_foo_forward :
    processWord "foo".toList [("o".toList, ["0".toList])] 1 2 =
      [("f0o".toList, 1), ("f00".toList, 2), ("fo0".toList, 1)] := by decide

/-- Claim C3: pattern-level forward mode with the table sending "o" to "0",
the word "foo", min 1 and max 1 emits exactly "f00" with substitution count
1 (one distinct pattern selected, both of its occurrences replaced), and in
particular neither "f0o" nor "fo0". -/
theorem claim_C3_pattern_level_foo :
    processWordSubstituteAll "foo".toList [("o".toList, ["0".toList])] 1 1 =
      [("f00".toList, 1)] := by decide

/-- Claim C4 (code bug): on word "oo" with the table sending "o" to "00"
and min = max = 2, processWordReverse composes the two replacements in
descending-start order while the running offset delta assumes
ascending-start order, so the second replacement lands INSIDE the first
replacement's output instead of at the original occurrence: the code emits
"o000" where spans landing at the correct original positions would give
"0000". -/
theorem claim_C4_reverse_composition_eval :
    processWordReverse "oo".toList [("o".toList, ["00".toList])] 2 2 =
      ([("o000".toList, 2)], true) := by decide

/-- Claim C8 (code bug): with the key "o" bound to an EMPTY replacement
list, processWord, processWordSubstituteAll and
processWordSubstituteAllReverse are total and give that key no branches,
but processWordReverse records the occurrence and then indexes
pos.subs[0] (src/main.go:396), which panics — the false flag. -/
theorem claim_C8_empty_replacement_eval :
    processWordReverse "o".toList [("o".toList, [])] 1 1 = ([], false)
    ∧ processWord "o".toList [("o".toList, [])] 1 1 = []
    ∧ processWordSubstituteAll "o".toList [("o".toList, [])] 1 1 = []
    ∧ processWordSubstituteAllReverse "o".toList [("o".toList, [])] 1 1 = [] := by decide

/-- Claim C6 counterexample: with the empty table and min = 0,
processWordReverse does NOT emit an empty variant stream: the subCount-0
iteration applies the empty combination and re-emits the unmodified input
word. -/
theorem claim_C6_counterexample :
    (processWordReverse "a".toList [] 0 15).1 ≠ []
    ∧ processWordReverse "a".toList [] 0 15 = ([("a".toList, 0)], true) := by decide

/-- Claim C6 as amended: with the empty table every algorithm emits nothing
whenever min is at least 1; with min = 0, processWord still emits nothing
(it bumps the minimum to 1), but the other three algorithms each emit
exactly the unmodified input word once, with substitution count 0. -/
theorem claim_C6_empty_table (word : Str) (minS maxS : Nat) :
    processWord word [] minS maxS = []
    ∧ (1 ≤ minS →
        processWordReverse word [] minS maxS = ([], true)
        ∧ processWordSubstituteAll word [] minS maxS = []
        ∧ processWordSubstituteAllReverse word [] minS maxS = [])
    ∧ (minS = 0 →
        processWordReverse word [] minS maxS = ([(word, 0)], true)
        ∧ processWordSubstituteAll word [] minS maxS = [(word, 0)]
        ∧ processWordSubstituteAllReverse word [] minS maxS = [(word, 0)]) := by
  refine ⟨?_, fun h => ⟨?_, ?_, ?_⟩, fun h => ?_⟩
  · simp only [processWord]
    exact genFwd_emptyMap
  · simp only [processWordReverse, findPositions_emptyMap, List.length_nil]
    rw [if_pos (show 0 < minS by omega)]
  · simp only [processWordSubstituteAll, findUniquePatterns_emptyMap, genAll]
    rw [if_pos (Or.inl (by simpa using h))]
  · simp only [processWordSubstituteAllReverse, findUniquePatterns_emptyMap, List.length_nil]
    rw [if_pos (show 0 < minS by omega)]
  · subst h
    refine ⟨?_, ?_, ?_⟩
    · simp only [processWordReverse, findPositions_emptyMap, List.length_nil]
      rw [if_neg (by omega), Nat.min_zero]
      rfl
    · simp only [processWordSubstituteAll, findUniquePatterns_emptyMap, genAll]
      rw [if_neg (by simp)]
      rfl
    · simp only [processWordSubstituteAllReverse, findUniquePatterns_emptyMap, List.length_nil]
      rw [if_neg (by omega)]
      simp [genSubsets, applySubs]

theorem claim_C6_witness :
    processWordSubstituteAll "a".toList [] 1 15 = []
    ∧ processWordSubstituteAll "b".toList [] 0 15 = [("b".toList, 0)] :=
  ⟨((claim_C6_empty_table "a".toList 1 15).2.1 (by decide)).2.1,
   ((claim_C6_empty_table "b".toList 0 15).2.2 rfl).2.1⟩

/-- Claim C7 counterexample: with the identity entry "o" maps to "o", the
word "o" and min = 0, processWord emits the unmodified input word (as a
count-1 variant), so "the unmodified input word is never emitted" is false
as stated. -/
theorem claim_C7_counterexample :
    ("o".toList, 1) ∈ processWord "o".toList [("o".toList, ["o".toList])] 0 1 := by decide

/-- Claim C7 as amended: a caller minimum of 0 behaves exactly as minimum 1
in processWord, and no variant is ever emitted with substitution count 0
(the input word can still appear, but only as the result of at least one
identity-like substitution). -/
theorem claim_C7_min_zero (word : Str) (m : SubMap) (maxS : Nat) :
    processWord word m 0 maxS = processWord word m 1 maxS
    ∧ ∀ p ∈ processWord word m 0 maxS, 1 ≤ p.2 := by
  refine ⟨rfl, fun p hp => ?_⟩
  simp only [processWord] at hp
  exact (genFwd_bounds hp).1

theorem claim_C7_witness : 1 ≤ ("f0o".toList, (1 : Nat)).2 :=
  (claim_C7_min_zero "foo".toList [("o".toList, ["0".toList])] 2).2
    ("f0o".toList, 1) (by decide)

theorem pairwise_gt_length_le {l : List Nat} {n : Nat}
    (hp : l.Pairwise (· > ·)) (hb : ∀ x ∈ l, x < n) : l.length ≤ n := by
  have hnd : l.Nodup := hp.imp (fun h => ne_of_gt h)
  have h1 : l.toFinset.card = l.length := List.toFinset_card_of_nodup hnd
  have h2 : l.toFinset ⊆ Finset.range n := by
    intro x hx
    rw [List.mem_toFinset] at hx
    exact Finset.mem_range.mpr (hb x hx)
  calc l.length = l.toFinset.card := h1.symm
    _ ≤ (Finset.range n).card := Finset.card_le_card h2
    _ = n := Finset.card_range n

theorem generateCombinations_mem :
    ∀ (k n : Nat) (l : List Nat),
      l ∈ generateCombinations n k ↔
        (l.length = k ∧ l.Pairwise (· > ·) ∧ ∀ x ∈ l, x < n) := by
  intro k
  induction k with
  | zero =>
    intro n l
    simp only [generateCombinations, List.mem_singleton]
    constructor
    · rintro rfl; simp
    · rintro ⟨h, _, _⟩; exact List.length_eq_zero.mp h
  | succ k ih =>
    intro n l
    simp only [generateCombinations]
    split
    · rename_i hn
      simp only [List.not_mem_nil, false_iff]
      rintro ⟨hlen, hp, hb⟩
      have := pairwise_gt_length_le hp hb
      omega
    · rename_i hn
      simp only [List.mem_flatMap, List.mem_map]
      constructor
      · rintro ⟨i, hi, s, hs, rfl⟩
        rcases descRange_mem.mp hi with ⟨hik, hin⟩
        rcases (ih i s).mp hs with ⟨hlen, hp, hb⟩
        refine ⟨by simp [hlen], ?_, ?_⟩
        · exact List.pairwise_cons.mpr ⟨fun x hx => hb x hx, hp⟩
        · intro x hx
          rcases List.mem_cons.mp hx with rfl | hx
          · omega
          · have := hb x hx; omega
      · rintro ⟨hlen, hp, hb⟩
        rcases l with _ | ⟨a, t⟩
        · simp at hlen
        · rcases List.pairwise_cons.mp hp with ⟨hat, hpt⟩
          have hbt : ∀ x ∈ t, x < a := fun x hx => hat x hx
          have hta : t.length ≤ a := pairwise_gt_length_le hpt hbt
          have ha : a < n := hb a (by simp)
          have hlt : t.length = k := by simpa using hlen
          exact ⟨a, descRange_mem.mpr ⟨by omega, by omega⟩, t,
            (ih a t).mpr ⟨hlt, hpt, hbt⟩, rfl⟩

theorem generateCombinations_nodup :
    ∀ (k n : Nat), (generateCombinations n k).Nodup := by
  intro k
  induction k with
  | zero => intro n; simp [generateCombinations]
  | succ k ih =>
    intro n
    simp only [generateCombinations]
    split
    · exact List.nodup_nil
    · refine List.nodup_flatMap.mpr ⟨?_, ?_⟩
      · intro i _
        exact (ih i).map List.cons_injective
      · have hnd : (descRange (n - 1) k).Nodup := by
          simp only [descRange, List.nodup_reverse]
          exact List.nodup_range' _ _
        refine hnd.imp ?_
        intro a b hab
        simp only [Function.onFun, List.Disjoint]
        intro x hxa hxb
        simp only [List.mem_map] at hxa hxb
        obtain ⟨s1, _, h1⟩ := hxa
        obtain ⟨s2, _, h2⟩ := hxb
        rw [← h1] at h2
        exact hab (List.cons_eq_cons.mp h2).1.symm

/-- Claim C5: generateCombinations returns the single empty subset for
k = 0, nothing for k greater than n, and otherwise every size-k subset of
the indices 0..n-1 exactly once (every strictly descending k-list over
0..n-1 appears, the output has no duplicates), and concretely
generateCombinations 4 2 is exactly the 6 distinct 2-element subsets of
the set 0,1,2,3. -/
theorem claim_C5_generateCombinations (n k : Nat) :
    (generateCombinations n k).Nodup
    ∧ (∀ l, l ∈ generateCombinations n k ↔
        (l.length = k ∧ l.Pairwise (· > ·) ∧ ∀ x ∈ l, x < n))
    ∧ generateCombinations n 0 = [[]]
    ∧ (n < k → generateCombinations n k = [])
    ∧ generateCombinations 4 2 = [[3,2],[3,1],[3,0],[2,1],[2,0],[1,0]]
    ∧ ((generateCombinations 4 2).map List.toFinset).Nodup
    ∧ (((generateCombinations 4 2).map List.toFinset).length = 6
        ∧ ∀ s ∈ (generateCombinations 4 2).map List.toFinset,
            s.card = 2 ∧ s ⊆ Finset.range 4) := by
  refine ⟨generateCombinations_nodup k n, fun l => generateCombinations_mem k n l, rfl,
    ?_, by decide, by decide, by decide⟩
  intro hnk
  cases k with
  | zero => omega
  | succ k => simp [generateCombinations, hnk]

theorem claim_C5_witness :
    (generateCombinations 4 2).Nodup ∧ generateCombinations 2 3 = [] :=
  ⟨(claim_C5_generateCombinations 4 2).1,
   (claim_C5_generateCombinations 2 3).2.2.2.1 (by decide)⟩

theorem replaceAllFuel_single {a b : Char} :
    ∀ (fuel : Nat) (s : Str), s.length ≤ fuel →
      replaceAllFuel [a] [b] fuel s = s.map (fun c => if c = a then b else c) := by
  intro fuel
  induction fuel with
  | zero =>
    intro s hs
    rw [List.length_eq_zero.mp (Nat.le_zero.mp hs)]
    rfl
  | succ fuel ih =>
    intro s hs
    cases s with
    | nil => rfl
    | cons c rest =>
      simp only [List.length_cons] at hs
      simp only [replaceAllFuel]
      by_cases hac : ([a] : Str).isPrefixOf (c :: rest) = true
      · have hca : a = c := by simpa [List.isPrefixOf] using hac
        subst hca
        rw [if_pos hac]
        simp only [List.length_singleton, List.drop_succ_cons, List.drop_zero]
        rw [ih rest (by omega)]
        simp
      · have hca : ¬(c = a) := by
          intro h
          apply hac
          simp [List.isPrefixOf, h]
        rw [if_neg hac]
        rw [ih rest (by omega)]
        simp [hca]

theorem replaceAll_single {a b : Char} (s : Str) :
    replaceAll s [a] [b] = s.map (fun c => if c = a then b else c) := by
  simp only [replaceAll]
  rw [if_neg (by simp)]
  exact replaceAllFuel_single s.length s le_rfl

theorem replaceAll_single_comm {a b c d : Char} (hac : a ≠ c) (hbc : b ≠ c) (hda : d ≠ a)
    (z : Str) :
    replaceAll (replaceAll z [a] [b]) [c] [d] = replaceAll (replaceAll z [c] [d]) [a] [b] := by
  simp only [replaceAll_single, List.map_map]
  congr 1
  funext e
  simp only [Function.comp]
  by_cases h1 : e = a
  · subst h1
    simp [hac, hbc]
  · by_cases h2 : e = c
    · subst h2
      simp [hac.symm, hda]
    · simp [h1, h2]

/-- The chosen-substitution sets for which the amended C10 proves order
independence: every pattern and replacement is a single byte, the chosen
patterns are pairwise distinct (as Go map keys always are) and no chosen
replacement byte equals a DIFFERENT chosen pattern byte. -/
def goodSubs (l : List (Str × Str)) : Prop :=
  (∀ pr ∈ l, pr.1.length = 1 ∧ pr.2.length = 1)
  ∧ l.Pairwise (fun x y => x.1 ≠ y.1 ∧ x.2 ≠ y.1 ∧ y.2 ≠ x.1)

/-- Claim C10 counterexample: the chosen set with "a" mapped to "b" and "b"
mapped to "c" (one replacement string equal to the other chosen pattern) on
the word "ab" gives DIFFERENT results under its two iteration orders, and
processWordSubstituteAll's emitted variant for word "ab", min = max = 2 is
exactly the result of one of those orders — so the emitted word depends on
the unspecified Go map iteration order. -/
theorem claim_C10_order_dependence_counterexample :
    List.Perm [("a".toList, "b".toList), ("b".toList, "c".toList)]
      [("b".toList, "c".toList), ("a".toList, "b".toList)]
    ∧ applySubs "ab".toList [("a".toList, "b".toList), ("b".toList, "c".toList)]
        ≠ applySubs "ab".toList [("b".toList, "c".toList), ("a".toList, "b".toList)]
    ∧ processWordSubstituteAll "ab".toList
        [("a".toList, ["b".toList]), ("b".toList, ["c".toList])] 2 2 =
        [(applySubs "ab".toList [("a".toList, "b".toList), ("b".toList, "c".toList)], 2)] := by
  refine ⟨by decide, by decide, by decide⟩

/-- Claim C10 as amended: applying the chosen global replace-alls is
order-independent whenever the chosen set is non-interfering — every
pattern and replacement a single byte, patterns pairwise distinct, and no
chosen replacement equal to a different chosen pattern (in particular for
classic single-character leetspeak tables whose replacement characters are
not themselves keys); in general the result depends on the iteration
order (see the counterexample). -/
theorem claim_C10_order_independent (w : Str) (l1 l2 : List (Str × Str))
    (hperm : l1.Perm l2) (hg : goodSubs l1) :
    applySubs w l1 = applySubs w l2 := by
  refine hperm.foldl_eq' ?_ w
  intro x hx y hy z
  by_cases hxy : x = y
  · subst hxy; rfl
  · obtain ⟨hx1, hx2⟩ := hg.1 x hx
    obtain ⟨hy1, hy2⟩ := hg.1 y hy
    obtain ⟨a, ha⟩ := List.length_eq_one.mp hx1
    obtain ⟨b, hb⟩ := List.length_eq_one.mp hx2
    obtain ⟨c, hc⟩ := List.length_eq_one.mp hy1
    obtain ⟨d, hd⟩ := List.length_eq_one.mp hy2
    have hsymm : Symmetric (fun x y : Str × Str => x.1 ≠ y.1 ∧ x.2 ≠ y.1 ∧ y.2 ≠ x.1) :=
      fun u v h => ⟨h.1.symm, h.2.2, h.2.1⟩
    have hrel := hg.2.forall hsymm hx hy hxy
    show replaceAll (replaceAll z x.1 x.2) y.1 y.2 = replaceAll (replaceAll z y.1 y.2) x.1 x.2
    rw [ha, hb, hc, hd]
    refine replaceAll_single_comm ?_ ?_ ?_ z
    · intro h; exact hrel.1 (by rw [ha, hc, h])
    · intro h; exact hrel.2.1 (by rw [hb, hc, h])
    · intro h; exact hrel.2.2 (by rw [hd, ha, h])

theorem claim_C10_witness :
    applySubs "ab".toList [("a".toList, "1".toList), ("b".toList, "2".toList)]
      = applySubs "ab".toList [("b".toList, "2".toList), ("a".toList, "1".toList)] :=
  claim_C10_order_independent "ab".toList _ _ (by decide) (by constructor <;> decide)

theorem lookup_appendEntry_self (m : SubMap) (k v : Str) :
    lookup (appendEntry m k v) k = some (lookupD m k ++ [v]) := by
  induction m with
  | nil => simp [appendEntry, lookup, lookupD]
  | cons pr rest ih =>
    obtain ⟨q, vs⟩ := pr
    by_cases h : q = k
    · subst h
      simp [appendEntry, lookup, lookupD]
    · simp only [appendEntry, if_neg h, lookup, lookupD] at ih ⊢
      exact ih

theorem lookup_appendEntry_other (m : SubMap) (k v k' : Str) (h : k' ≠ k) :
    lookup (appendEntry m k v) k' = lookup m k' := by
  induction m with
  | nil =>
    have hkk : ¬k = k' := fun hh => h hh.symm
    simp [appendEntry, lookup, hkk]
  | cons pr rest ih =>
    obtain ⟨q, vs⟩ := pr
    by_cases hq : q = k
    · have hqk : ¬q = k' := fun hh => h (hh ▸ hq)
      simp only [appendEntry, if_pos hq, lookup, if_neg hqk]
    · simp only [appendEntry, if_neg hq, lookup]
      by_cases hq' : q = k'
      · rw [if_pos hq', if_pos hq']
      · rw [if_neg hq', if_neg hq', ih]

/-- Claim C9 counterexample: the line "a=b=c" does NOT contain exactly one
'=' separator, yet readSubstitutionTable does not skip it: Go's
SplitN(line, "=", 2) splits at the first '=' only, so the line contributes
the entry mapping "a" to "b=c". -/
theorem claim_C9_two_equals_counterexample :
    readSubstitutionTable ["a=b=c".toList] = [("a".toList, ["b=c".toList])]
    ∧ readSubstitutionTable ["a=b=c".toList] ≠ [] :=
  ⟨by decide, by decide⟩

/-- Claim C9 as amended: a non-empty non-comment line with NO '=' at all is
skipped and contributes nothing; a line whose key or value part fails
$HEX decoding is skipped and contributes nothing; neither makes the load
fail (the model is total); every other line splits at the FIRST '=' (the
value may itself contain '=') and contributes exactly one replacement
appended to its key's option list, leaving every other key unchanged. -/
theorem claim_C9_table_line_handling (m : SubMap) (raw : Str) :
    ('=' ∉ trimSpace raw → tableStep m raw = m)
    ∧ (∀ kp vp, splitEq (trimSpace raw) = some (kp, vp) →
        ( decodeHexNotation kp = none → tableStep m raw = m)
        ∧ ( decodeHexNotation vp = none → tableStep m raw = m)
        ∧ (∀ k v, decodeHexNotation kp = some k → decodeHexNotation vp = some v →
            trimSpace raw ≠ [] → (trimSpace raw).head? ≠ some '#' →
            tableStep m raw = appendEntry m k v
            ∧ lookup (tableStep m raw) k = some (lookupD m k ++ [v])
            ∧ ∀ k', k' ≠ k → lookup (tableStep m raw) k' = lookup m k')) := by
  constructor
  · intro hne
    simp only [tableStep]
    split
    · rfl
    · rw [show splitEq (trimSpace raw) = none by simp [splitEq, hne]]
  · intro kp vp hsplit
    refine ⟨?_, ?_, ?_⟩
    · intro hk
      simp only [tableStep]
      split
      · rfl
      · simp only [hsplit, hk]
    · intro hv
      simp only [tableStep]
      split
      · rfl
      · simp only [hsplit, hv]
        split
        · rename_i k2 v2 heq1 heq2
          exact Option.noConfusion heq2
        · rfl
    · intro k v hk hv hne hnc
      have hstep : tableStep m raw = appendEntry m k v := by
        simp only [tableStep]
        rw [if_neg (by simp [hne, hnc])]
        simp only [hsplit, hk, hv]
      refine ⟨hstep, ?_, fun k' hk' => ?_⟩
      · rw [hstep]
        exact lookup_appendEntry_self m k v
      · rw [hstep]
        exact lookup_appendEntry_other m k v k' hk'

theorem claim_C9_witness :
    tableStep [] "a=b".toList = appendEntry [] "a".toList "b".toList :=
  (((claim_C9_table_line_handling [] "a=b".toList).2 "a".toList "b".toList (by decide)).2.2
    "a".toList "b".toList (by decide) (by decide) (by decide) (by decide)).1
